import Mathlib

/-
Verification development for the pi-undo-redo snapshot engine.

The TypeScript sources are shallowly embedded as pure Lean functions:

* file contents (`Buffer`s) are lists of byte values (`Bytes`);
* JavaScript `Map`s, the on-disk blob directory, the leaves directory and
  flat directory trees are insertion-ordered association lists with the
  `Map` update semantics (`aset` replaces in place, `aremove` deletes,
  `alookup` is `get`);
* the SHA-256 digest `hashBuffer` is an abstract hash function passed
  explicitly to the operations that hash; theorems that need
  collision-freedom take injectivity as a hypothesis and witnesses
  instantiate it with an injective function;
* `async` methods become state-passing functions over `Tracker`/`Cache`/
  file-system values; a thrown filesystem or blob-read error is `none` in
  an `Option` result.
-/

set_option autoImplicit false

namespace UndoRedo

/-- Byte sequences: the contents of a Node `Buffer`, one `Nat` per byte. -/
abbrev Bytes := List Nat

/-- Content digests, the codomain of the content-hash function
(`hashBuffer` in `cache.ts`, SHA-256 hex in the source). -/
abbrev Digest := List Nat

section AssocOps

variable {κ α : Type} [DecidableEq κ]

/-- Lookup in an insertion-ordered association list (JS `Map.get`). -/
def alookup : List (κ × α) → κ → Option α
  | [], _ => none
  | (k, v) :: rest, key => if k = key then some v else alookup rest key

/-- Keys of an association list, in order (JS `Map.keys()`). -/
def akeys (m : List (κ × α)) : List κ :=
  m.map Prod.fst

/-- JS `Map.set`: replace the value in place when the key is present,
append a new entry otherwise. -/
def aset : List (κ × α) → κ → α → List (κ × α)
  | [], k, v => [(k, v)]
  | (k0, v0) :: rest, k, v =>
      if k0 = k then (k, v) :: rest else (k0, v0) :: aset rest k v

/-- JS `Map.delete`, and `rm(path, { force: true })` on a flat file map:
removing an absent key is a tolerated no-op. -/
def aremove : List (κ × α) → κ → List (κ × α)
  | [], _ => []
  | (k0, v0) :: rest, k =>
      if k0 = k then aremove rest k else (k0, v0) :: aremove rest k

end AssocOps

/-- One `FileState` record (`types.ts`): existence flag plus optional
content hash, byte size and binary flag. -/
structure FileState where
  «exists» : Bool
  hash : Option Digest
  size : Option Nat
  binary : Option Bool
deriving DecidableEq

/-- A manifest: project-relative path to `FileState` (`types.ts`,
`Manifest = Map<string, FileState>`). -/
abbrev Manifest := List (String × FileState)

/-- A flat directory tree: project-relative path to file bytes; an absent
key is a file that does not exist at that root. -/
abbrev FS := List (String × Bytes)

/-- The persistent session cache (`cache.ts`): the content-addressed blob
directory, the single base manifest file and the per-leaf manifest files. -/
structure Cache where
  blobs : List (Digest × Bytes)
  base : Option Manifest
  leaves : List (String × Manifest)
deriving DecidableEq

/-- The `writeBlob` of `cache.ts`: check existence first and return without
writing when the blob for this hash is already stored; otherwise write the
buffer under the hash key. -/
def Cache.writeBlob (c : Cache) (h : Digest) (buffer : Bytes) : Cache :=
  if (alookup c.blobs h).isSome then c
  else { c with blobs := c.blobs ++ [(h, buffer)] }

/-- The `readBlob` of `cache.ts`: `none` models the thrown `ENOENT`. -/
def Cache.readBlob (c : Cache) (h : Digest) : Option Bytes :=
  alookup c.blobs h

/-- The `readBase` of `cache.ts`. -/
def Cache.readBase (c : Cache) : Option Manifest :=
  c.base

/-- The `writeBase` of `cache.ts`: a full replace of the base manifest file. -/
def Cache.writeBase (c : Cache) (m : Manifest) : Cache :=
  { c with base := some m }

/-- The `readLeaf` of `cache.ts`: absent is a result, not an error. -/
def Cache.readLeaf (c : Cache) (leafId : String) : Option Manifest :=
  alookup c.leaves leafId

/-- The `writeLeaf` of `cache.ts`: a full replace of the leaf's manifest file. -/
def Cache.writeLeaf (c : Cache) (leafId : String) (m : Manifest) : Cache :=
  { c with leaves := aset c.leaves leafId m }

/-- The binary sniff of `tracker.ts` (`isBinaryBuffer`): a buffer containing
a zero byte is binary.  The source additionally treats buffers that fail the
UTF-8 decode/re-encode round trip as binary; none of the verified claims
depends on the value of the `binary` flag, so that second test is not
modelled. -/
def isBinaryBuffer (buffer : Bytes) : Bool :=
  buffer.contains 0

/-- The in-flight snapshot record of `tracker.ts` (`SnapshotData`). -/
structure SnapshotData where
  «exists» : Bool
  buffer : Option Bytes
  hash : Option Digest
  size : Option Nat
  binary : Option Bool
deriving DecidableEq

/-- The `readSnapshot` of `tracker.ts`: read the file at `sourceRoot/path`,
tolerating `ENOENT` as a valid nonexistent state; hash, size and binary
flag are computed from the bytes alone. -/
def readSnapshot (hashFn : Bytes → Digest) (fs : FS) (p : String) : SnapshotData :=
  match alookup fs p with
  | none => ⟨false, none, none, none, none⟩
  | some b => ⟨true, some b, some (hashFn b), some b.length, some (isBinaryBuffer b)⟩

/-- The `writeSnapshotToCache` of `tracker.ts`: a nonexistent snapshot is
recorded as a bare `exists:false` state; otherwise the bytes are stored in
the blob store before the `FileState` is produced. -/
def writeSnapshotToCache (c : Cache) (s : SnapshotData) : FileState × Cache :=
  if s.«exists» = false then (⟨false, none, none, none⟩, c)
  else
    match s.buffer, s.hash with
    | some b, some h => (⟨true, some h, s.size, s.binary⟩, c.writeBlob h b)
    | _, _ => (⟨false, none, none, none⟩, c)

/-- The aggregate tracked statistics (`types.ts`, `TrackedStats`). -/
structure TrackedStats where
  fileCount : Nat
  totalBytes : Nat
deriving DecidableEq

/-- The in-memory state of `SnapshotTracker` (`tracker.ts`): base manifest,
tracked (current-leaf) manifest and the read-through leaf-manifest cache. -/
structure Tracker where
  baseManifest : Manifest
  trackedManifest : Manifest
  leafCache : List (String × Manifest)
deriving DecidableEq

/-- The `loadBase` of `tracker.ts`: populate the base manifest from the
store, or leave it as it is when none exists. -/
def loadBase (t : Tracker) (c : Cache) : Tracker :=
  match c.readBase with
  | some b => { t with baseManifest := b }
  | none => t

/-- The `getTrackedStats` of `tracker.ts`: count of existing tracked paths
and the sum of their recorded sizes (missing size counts as zero). -/
def getTrackedStats (t : Tracker) : TrackedStats :=
  t.trackedManifest.foldl
    (fun acc pe =>
      if pe.2.«exists» then ⟨acc.fileCount + 1, acc.totalBytes + pe.2.size.getD 0⟩
      else acc)
    ⟨0, 0⟩

/-- The `setTrackedManifest` of `tracker.ts` (the stats callback is modelled
by `getTrackedStats` on the resulting state). -/
def setTracked (t : Tracker) (m : Manifest) : Tracker :=
  { t with trackedManifest := m }

/-- The private `ensureBase` of `tracker.ts`: when the base manifest has no
entry for the path, snapshot the file at the given source root, store its
bytes, record the entry and persist the base manifest. -/
def ensureBase (hashFn : Bytes → Digest) (t : Tracker) (c : Cache)
    (sourceRoot : FS) (p : String) : Tracker × Cache :=
  if (alookup t.baseManifest p).isSome then (t, c)
  else
    let s := readSnapshot hashFn sourceRoot p
    let ec := writeSnapshotToCache c s
    let t1 := { t with baseManifest := aset t.baseManifest p ec.1 }
    (t1, ec.2.writeBase t1.baseManifest)

/-- The `ensureBaseFromSandbox` of `tracker.ts`: `ensureBase` rooted at the
sandbox mirror. -/
def ensureBaseFromSandbox (hashFn : Bytes → Digest) (t : Tracker) (c : Cache)
    (sandbox : FS) (p : String) : Tracker × Cache :=
  ensureBase hashFn t c sandbox p

/-- The `ensureBaseFromDisk` of `tracker.ts`: `ensureBase` rooted at the
real working directory. -/
def ensureBaseFromDisk (hashFn : Bytes → Digest) (t : Tracker) (c : Cache)
    (real : FS) (p : String) : Tracker × Cache :=
  ensureBase hashFn t c real p

/-- The `updateFromSandbox` of `tracker.ts`: snapshot the sandbox copy,
store its bytes, set the tracked entry and return it. -/
def updateFromSandbox (hashFn : Bytes → Digest) (t : Tracker) (c : Cache)
    (sandbox : FS) (p : String) : Tracker × Cache × FileState :=
  let s := readSnapshot hashFn sandbox p
  let ec := writeSnapshotToCache c s
  ({ t with trackedManifest := aset t.trackedManifest p ec.1 }, ec.2, ec.1)

/-- The `markDeleted` of `tracker.ts`: record `exists:false` for the path in
the tracked manifest without touching storage. -/
def markDeleted (t : Tracker) (p : String) : Tracker :=
  { t with trackedManifest := aset t.trackedManifest p ⟨false, none, none, none⟩ }

/-- The `saveLeaf` of `tracker.ts`: a no-op for a null id; otherwise
snapshot the tracked manifest verbatim into the leaf cache and persist it
as a full overwrite. -/
def saveLeaf (t : Tracker) (c : Cache) (leafId : Option String) : Tracker × Cache :=
  match leafId with
  | none => (t, c)
  | some lid =>
      ({ t with leafCache := aset t.leafCache lid t.trackedManifest },
        c.writeLeaf lid t.trackedManifest)

/-- The `loadLeaf` of `tracker.ts`: cache-first lookup falling back to the
persistent store (caching what it finds); absent if never saved. -/
def loadLeaf (t : Tracker) (c : Cache) (leafId : String) : Option Manifest × Tracker :=
  match alookup t.leafCache leafId with
  | some m => (some m, t)
  | none =>
      match c.readLeaf leafId with
      | some m => (some m, { t with leafCache := aset t.leafCache leafId m })
      | none => (none, t)

/-- One entry step of `applyManifest` (`tracker.ts`): a nonexistent entry
deletes the path (tolerating an already-absent file); an existing entry
without a hash is skipped; otherwise the bytes are fetched by hash
(`none` models the thrown blob-read error) and written at the path. -/
def applyEntry (c : Cache) (fs : FS) (p : String) (e : FileState) : Option FS :=
  if e.«exists» = false then some (aremove fs p)
  else
    match e.hash with
    | none => some fs
    | some h =>
        match c.readBlob h with
        | none => none
        | some b => some (aset fs p b)

/-- The `applyManifest` of `tracker.ts`: apply every entry in manifest
order to the directory at `targetRoot`. -/
def applyManifest (c : Cache) (m : Manifest) (fs : FS) : Option FS :=
  match m with
  | [] => some fs
  | pe :: rest =>
      match applyEntry c fs pe.1 pe.2 with
      | none => none
      | some fs1 => applyManifest c rest fs1

/-- The overlay loop of `restoreLeaf`: leaf entries take precedence per
path over the base copy. -/
def overlay (base leaf : Manifest) : Manifest :=
  leaf.foldl (fun acc pe => aset acc pe.1 pe.2) base

/-- The `for (const root of applyRoots)` loop of `restoreLeaf`: roots are
applied sequentially and a failure aborts the remaining roots. -/
def applyAll (c : Cache) (m : Manifest) : List FS → Option (List FS)
  | [] => some []
  | fs :: rest =>
      match applyManifest c m fs with
      | none => none
      | some fs1 =>
          match applyAll c m rest with
          | none => none
          | some rest1 => some (fs1 :: rest1)

/-- The `restoreLeaf` of `tracker.ts`: compute the effective manifest (the
base manifest overlaid by the leaf manifest when a leaf id is given;
an unknown leaf id returns early, a null id uses the base alone), apply it
to every root, then set the tracked manifest to it. -/
def restoreLeaf (t : Tracker) (c : Cache) (leafId : Option String)
    (applyRoots : List FS) : Option (Tracker × List FS) :=
  match leafId with
  | none =>
      (applyAll c t.baseManifest applyRoots).map
        (fun roots1 => (setTracked t t.baseManifest, roots1))
  | some lid =>
      match loadLeaf t c lid with
      | (none, t1) => some (t1, applyRoots)
      | (some lm, t1) =>
          let eff := overlay t.baseManifest lm
          (applyAll c eff applyRoots).map
            (fun roots1 => (setTracked t1 eff, roots1))

/-- The change classifier of `diff-stack.ts` (`describeChange`): `A`dded,
`M`odified, `D`eleted; `none` is "no change". -/
inductive ChangeKind
  | A
  | M
  | D
deriving DecidableEq

/-- The `describeChange` of `diff-stack.ts`: the four-way decision table on
the optional base and leaf entries.  Optional chaining on the hash of an
absent entry yields `none`, exactly as `baseEntry?.hash` yields `undefined`. -/
def describeChange (baseEntry leafEntry : Option FileState) : Option ChangeKind :=
  let baseExists := (baseEntry.map FileState.exists).getD false
  let leafExists := (leafEntry.map FileState.exists).getD false
  if !baseExists && leafExists then some .A
  else if baseExists && !leafExists then some .D
  else if baseExists && leafExists
      && decide (baseEntry.bind FileState.hash ≠ leafEntry.bind FileState.hash) then
    some .M
  else none

/-- Per-path size and modification time (`types.ts`, `SandboxEntryStats`). -/
structure SandboxEntryStats where
  size : Nat
  mtimeMs : Nat
deriving DecidableEq

/-- A stat map: path to `SandboxEntryStats` in insertion order. -/
abbrev StatsMap := List (String × SandboxEntryStats)

/-- The result record of `diffSandboxStats` (`sandbox.ts`). -/
structure SandboxDiff where
  added : List String
  removed : List String
  changed : List String
deriving DecidableEq

/-- The `diffSandboxStats` of `sandbox.ts`: walk `after` in order, listing
paths unknown to `before` as added and paths whose size or mtime differs as
changed; walk `before` in order, listing paths absent from `after` as
removed.  The source's single accumulating loop per pass is written as the
equivalent order-preserving filters. -/
def diffSandboxStats (before after : StatsMap) : SandboxDiff :=
  let added :=
    (after.filter (fun pe => (alookup before pe.1).isNone)).map Prod.fst
  let changed :=
    (after.filter (fun pe =>
      match alookup before pe.1 with
      | none => false
      | some prev => decide (prev.size ≠ pe.2.size ∨ prev.mtimeMs ≠ pe.2.mtimeMs))).map Prod.fst
  let removed :=
    (before.filter (fun pe => (alookup after pe.1).isNone)).map Prod.fst
  ⟨added, removed, changed⟩

/-- The undo/redo navigation state held in `SessionState` (`index.ts`):
current leaf pointer and the two history stacks (arrays pushed and popped
at the end). -/
structure NavState where
  currentLeafId : Option String
  undoStack : List String
  redoStack : List String
  navigating : Bool
deriving DecidableEq

/-- The `navigateTo` of `index.ts`: capture the current leaf pointer and
copies of both stacks, set `navigating`, then run the external
`waitForIdle`/`navigateTree` primitive; when it throws or reports
cancellation, restore the captured values and clear `navigating`. -/
def navigateTo (s : NavState) (_targetId : String) (navFails : Bool) : NavState :=
  let previousLeaf := s.currentLeafId
  let previousUndo := s.undoStack
  let previousRedo := s.redoStack
  let s1 := { s with navigating := true }
  if navFails then
    { s1 with
        undoStack := previousUndo
        redoStack := previousRedo
        currentLeafId := previousLeaf
        navigating := false }
  else s1

/-- The `/undo` command handler of `index.ts`: pop the undo stack, push the
current leaf onto the redo stack, then call `navigateTo` (whose quiescence
or switch primitive may fail). -/
def undoCommand (s : NavState) (navFails : Bool) : NavState :=
  match s.undoStack.getLast? with
  | none => s
  | some targetId =>
      let s1 := { s with undoStack := s.undoStack.dropLast }
      let s2 :=
        match s1.currentLeafId with
        | some cur => { s1 with redoStack := s1.redoStack ++ [cur] }
        | none => s1
      navigateTo s2 targetId navFails

/-- The `/redo` command handler of `index.ts`, symmetric to `/undo`. -/
def redoCommand (s : NavState) (navFails : Bool) : NavState :=
  match s.redoStack.getLast? with
  | none => s
  | some targetId =>
      let s1 := { s with redoStack := s.redoStack.dropLast }
      let s2 :=
        match s1.currentLeafId with
        | some cur => { s1 with undoStack := s1.undoStack ++ [cur] }
        | none => s1
      navigateTo s2 targetId navFails

/-- One part of the line diff handed to the renderer (`Diff.diffLines` of
the external `diff` package): a run of text that is added, removed, or
common to both sides.  The library is outside this repository, so the
renderer is verified over its output parts. -/
structure DiffPart where
  value : String
  added : Bool
  removed : Bool
deriving DecidableEq

/-- JavaScript `content.split("\n")` on the character list of a string. -/
def splitLinesAux : List Char → List Char → List String
  | [], acc => [String.mk acc.reverse]
  | ch :: rest, acc =>
      if ch = '\n' then String.mk acc.reverse :: splitLinesAux rest []
      else splitLinesAux rest (ch :: acc)

/-- JavaScript `content.split("\n")`. -/
def splitLines (s : String) : List String :=
  splitLinesAux s.data []

/-- JavaScript `String.prototype.padStart(width, " ")`. -/
def padStart (s : String) (width : Nat) : String :=
  String.mk (List.replicate (width - s.length) ' ') ++ s

/-- The `part.value.split("\n")` plus trailing-empty-line pop at the top of
the `generateDiffString` loop body. -/
def splitRaw (value : String) : List String :=
  let raw := splitLines value
  if raw.getLast? = some "" then raw.dropLast else raw

/-- The ellipsis marker line pushed for a skipped run of unchanged lines. -/
def ellipsisLine (width : Nat) : String :=
  " " ++ padStart "" width ++ " ..."

/-- The rendering of a run of unchanged lines: one padded line number and
the line text per line, numbering from `oldN`. -/
def commonLines (width oldN : Nat) : List String → List String
  | [] => []
  | l :: rest => (" " ++ padStart (toString oldN) width ++ " " ++ l) :: commonLines width (oldN + 1) rest

/-- The rendering of a run of added (`+`, new line numbers) or removed
(`-`, old line numbers) lines. -/
def changedLines (width : Nat) (isAdded : Bool) (n : Nat) : List String → List String
  | [] => []
  | l :: rest =>
      ((if isAdded then "+" else "-") ++ padStart (toString n) width ++ " " ++ l)
        :: changedLines width isAdded (n + 1) rest

/-- The unchanged-part branch of the `generateDiffString` loop
(`diff-stack.ts`): when the previous part was not a change, skip all but
the last `contextLines` lines; when the next part is not a change and more
than `contextLines` lines remain, keep only the first `contextLines`;
each nonzero skip emits one ellipsis marker and advances both counters.
Returns the emitted lines and the updated old/new line counters. -/
def renderCommon (width contextLines : Nat) (lastWasChange nextPartIsChange : Bool)
    (raw : List String) (oldN newN : Nat) : List String × Nat × Nat :=
  let skipStart := if lastWasChange then 0 else raw.length - contextLines
  let lines1 := raw.drop skipStart
  let cut := !nextPartIsChange && decide (lines1.length > contextLines)
  let skipEnd := if cut then lines1.length - contextLines else 0
  let linesToShow := if cut then lines1.take contextLines else lines1
  let pre := if skipStart > 0 then [ellipsisLine width] else []
  let post := if skipEnd > 0 then [ellipsisLine width] else []
  (pre ++ commonLines width (oldN + skipStart) linesToShow ++ post,
    oldN + skipStart + linesToShow.length + skipEnd,
    newN + skipStart + linesToShow.length + skipEnd)

/-- The loop state of `generateDiffString`. -/
structure RenderState where
  output : List String
  oldLineNum : Nat
  newLineNum : Nat
  lastWasChange : Bool
  firstChangedLine : Option Nat
deriving DecidableEq

/-- One iteration of the `generateDiffString` loop over the diff parts. -/
def renderPart (width contextLines : Nat) (part : DiffPart) (nextPartIsChange : Bool)
    (st : RenderState) : RenderState :=
  let raw := splitRaw part.value
  if part.added || part.removed then
    let fcl := some (st.firstChangedLine.getD st.newLineNum)
    if part.added then
      { output := st.output ++ changedLines width true st.newLineNum raw
        oldLineNum := st.oldLineNum
        newLineNum := st.newLineNum + raw.length
        lastWasChange := true
        firstChangedLine := fcl }
    else
      { output := st.output ++ changedLines width false st.oldLineNum raw
        oldLineNum := st.oldLineNum + raw.length
        newLineNum := st.newLineNum
        lastWasChange := true
        firstChangedLine := fcl }
  else if st.lastWasChange || nextPartIsChange then
    let r := renderCommon width contextLines st.lastWasChange nextPartIsChange raw
      st.oldLineNum st.newLineNum
    { output := st.output ++ r.1
      oldLineNum := r.2.1
      newLineNum := r.2.2
      lastWasChange := false
      firstChangedLine := st.firstChangedLine }
  else
    { st with
        oldLineNum := st.oldLineNum + raw.length
        newLineNum := st.newLineNum + raw.length
        lastWasChange := false }

/-- The `generateDiffString` loop: each part sees whether the next part is
a change (false for the last part). -/
def renderParts (width contextLines : Nat) : List DiffPart → RenderState → RenderState
  | [], st => st
  | part :: rest, st =>
      let nextPartIsChange :=
        match rest with
        | [] => false
        | p :: _ => p.added || p.removed
      renderParts width contextLines rest (renderPart width contextLines part nextPartIsChange st)

/-- The `generateDiffString` of `diff-stack.ts`, over the diff parts
produced by the external line differ: output lines (joined with newlines in
the source) and the first changed new-side line number.  The line-number
width is the decimal width of the larger side's line count. -/
def generateDiffLines (oldContent newContent : String) (parts : List DiffPart)
    (contextLines : Nat) : List String × Option Nat :=
  let oldLines := splitLines oldContent
  let newLines := splitLines newContent
  let maxLineNum := max oldLines.length newLines.length
  let width := (toString maxLineNum).length
  let st := renderParts width contextLines parts ⟨[], 1, 1, false, none⟩
  (st.output, st.firstChangedLine)

/-- Reconstruction of the old text from diff parts: the concatenation of
every part that is not an addition. -/
def partsOldText (parts : List DiffPart) : String :=
  String.join ((parts.filter (fun p => !p.added)).map DiffPart.value)

/-- Reconstruction of the new text from diff parts: the concatenation of
every part that is not a removal. -/
def partsNewText (parts : List DiffPart) : String :=
  String.join ((parts.filter (fun p => !p.removed)).map DiffPart.value)

/-- The `FileState` invariant of the design: a nonexistent entry carries no
hash, size or binary flag, and an entry with a hash has that hash present
in the blob store. -/
def FileStateInv (c : Cache) (e : FileState) : Prop :=
  (e.«exists» = false → e.hash = none ∧ e.size = none ∧ e.binary = none) ∧
  (∀ h : Digest, e.hash = some h → (alookup c.blobs h).isSome = true)

/-- String contents as bytes, for concrete scenarios: one byte per
character code. -/
def strBytes (s : String) : Bytes :=
  s.data.map Char.toNat

/-- An injective stand-in for the content digest in concrete scenarios. -/
def idDigest (b : Bytes) : Digest :=
  b

/-- Sandbox root of the end-to-end scenario: `note.txt` contains `base`. -/
def rtSandbox0 : FS :=
  [("note.txt", strBytes "base")]

/-- Real root of the end-to-end scenario: `note.txt` contains `base`. -/
def rtReal0 : FS :=
  [("note.txt", strBytes "base")]

/-- Scenario step: fresh tracker and cache after `loadBase` and
`ensureBaseFromSandbox("note.txt")`. -/
def rtStep1 : Tracker × Cache :=
  ensureBaseFromSandbox idDigest (loadBase ⟨[], [], []⟩ ⟨[], none, []⟩) ⟨[], none, []⟩
    rtSandbox0 "note.txt"

/-- Scenario step: the sandbox copy overwritten to `updated`. -/
def rtSandbox1 : FS :=
  aset rtSandbox0 "note.txt" (strBytes "updated")

/-- Scenario step: tracker, cache and entry after `updateFromSandbox`. -/
def rtStep2 : Tracker × Cache × FileState :=
  updateFromSandbox idDigest rtStep1.1 rtStep1.2 rtSandbox1 "note.txt"

/-- Scenario step: the real file overwritten to `other`. -/
def rtReal1 : FS :=
  aset rtReal0 "note.txt" (strBytes "other")

/-- The tracked entry for `note.txt` after the scenario's update. -/
def rtEntryU : FileState :=
  ⟨true, some (strBytes "updated"), some 7, some false⟩

/-- The base entry for `note.txt` recorded by the scenario. -/
def rtEntryB : FileState :=
  ⟨true, some (strBytes "base"), some 4, some false⟩

/-- The tracker after the scenario's `restoreLeaf`. -/
def rtT2 : Tracker :=
  ⟨[("note.txt", rtEntryB)], [("note.txt", rtEntryU)],
    [("leaf-1", [("note.txt", rtEntryU)])]⟩

/-- The real root after the scenario's `restoreLeaf`. -/
def rtFs1 : FS :=
  [("note.txt", strBytes "updated")]

/-- A tracker whose leaf `L` deletes `gone.txt` and adds `new.txt` over a
base that records `keep.txt`. -/
def aeT : Tracker :=
  ⟨[("keep.txt", ⟨true, some [1], some 1, some false⟩)], [],
    [("L", [("gone.txt", ⟨false, none, none, none⟩),
            ("new.txt", ⟨true, some [2], some 1, some false⟩)])]⟩

/-- The blob store backing `aeT`. -/
def aeC : Cache :=
  ⟨[([1], [10]), ([2], [20])], none, []⟩

/-- A root holding only the to-be-deleted file. -/
def aeRoot0 : FS :=
  [("gone.txt", [7])]

/-- The effective manifest of leaf `L` over `aeT`'s base. -/
def aeEff : Manifest :=
  [("keep.txt", ⟨true, some [1], some 1, some false⟩),
    ("gone.txt", ⟨false, none, none, none⟩),
    ("new.txt", ⟨true, some [2], some 1, some false⟩)]

/-- The tracker after restoring leaf `L` of `aeT`. -/
def aeT1 : Tracker :=
  ⟨[("keep.txt", ⟨true, some [1], some 1, some false⟩)], aeEff,
    [("L", [("gone.txt", ⟨false, none, none, none⟩),
            ("new.txt", ⟨true, some [2], some 1, some false⟩)])]⟩

/-- The root after restoring leaf `L` of `aeT`. -/
def aeRes : FS :=
  [("keep.txt", [10]), ("new.txt", [20])]

/-- A tracker with one base file and a cached leaf manifest, for the
idempotence witness. -/
def ipT : Tracker :=
  ⟨[("a", ⟨true, some [1], some 1, some false⟩)], [],
    [("L", [("b", ⟨true, some [2], some 2, some false⟩)])]⟩

/-- The blob store backing `ipT`. -/
def ipC : Cache :=
  ⟨[([1], [10]), ([2], [20])], none, []⟩

/-- The single root restored in the idempotence witness. -/
def ipRoots : List FS :=
  [[("zzz", [9]), ("a", [0])]]

/-- The tracker after restoring leaf `L` of `ipT`. -/
def ipT1 : Tracker :=
  ⟨[("a", ⟨true, some [1], some 1, some false⟩)],
    [("a", ⟨true, some [1], some 1, some false⟩),
      ("b", ⟨true, some [2], some 2, some false⟩)],
    [("L", [("b", ⟨true, some [2], some 2, some false⟩)])]⟩

/-- The roots after restoring leaf `L` of `ipT`. -/
def ipRs : List FS :=
  [[("zzz", [9]), ("a", [10]), ("b", [20])]]

/-- The sandbox of the deduplication witness: two paths, identical bytes. -/
def ddSandbox : FS :=
  [("p1", [5]), ("p2", [5])]

/-- The `before` stat map of the `diffSandboxStats` example. -/
def exBefore : StatsMap :=
  [("a.txt", ⟨1, 100⟩), ("b.txt", ⟨2, 200⟩)]

/-- The `after` stat map of the `diffSandboxStats` example. -/
def exAfter : StatsMap :=
  [("b.txt", ⟨3, 200⟩), ("c.txt", ⟨4, 300⟩)]

/-- The old text of the collapsed-context counterexample. -/
def cxOld : String :=
  "A\nu1\nu2\nu3\nu4\nu5\nC\n"

/-- The new text of the collapsed-context counterexample. -/
def cxNew : String :=
  "B\nu1\nu2\nu3\nu4\nu5\nD\n"

/-- The line-diff parts of `cxOld` versus `cxNew`: one changed line, five
unchanged lines, one changed line. -/
def cxParts : List DiffPart :=
  [⟨"A\n", false, true⟩, ⟨"B\n", true, false⟩,
    ⟨"u1\nu2\nu3\nu4\nu5\n", false, false⟩,
    ⟨"C\n", false, true⟩, ⟨"D\n", true, false⟩]

section AssocLemmas

variable {κ α : Type} [DecidableEq κ]

theorem alookup_append (l1 l2 : List (κ × α)) (k : κ) :
    alookup (l1 ++ l2) k =
      match alookup l1 k with
      | some v => some v
      | none => alookup l2 k := by
  induction l1 with
  | nil => simp [alookup]
  | cons kv rest ih =>
      obtain ⟨k0, v0⟩ := kv
      by_cases hk : k0 = k <;> simp [alookup, hk, ih]

theorem alookup_aset (m : List (κ × α)) (k : κ) (v : α) (k' : κ) :
    alookup (aset m k v) k' = if k' = k then some v else alookup m k' := by
  induction m with
  | nil =>
      by_cases hk : k' = k
      · subst hk
        simp [aset, alookup]
      · have hk2 : ¬k = k' := fun h => hk h.symm
        simp [aset, alookup, hk, hk2]
  | cons kv rest ih =>
      obtain ⟨k0, v0⟩ := kv
      by_cases h0 : k0 = k
      · subst h0
        by_cases hk : k' = k0
        · subst hk
          simp [aset, alookup]
        · have hk2 : ¬k0 = k' := fun h => hk h.symm
          simp [aset, alookup, hk, hk2]
      · by_cases h1 : k0 = k'
        · have hk : ¬k' = k := fun h => h0 (h1.trans h)
          simp [aset, alookup, h0, h1, hk]
        · simp [aset, alookup, h0, h1, ih]

theorem mem_of_alookup {m : List (κ × α)} {k : κ} {v : α}
    (h : alookup m k = some v) : (k, v) ∈ m := by
  induction m with
  | nil => simp [alookup] at h
  | cons kv rest ih =>
      obtain ⟨k0, v0⟩ := kv
      by_cases hk : k0 = k
      · subst hk
        simp [alookup] at h
        simp [h]
      · simp [alookup, hk] at h
        simp [ih h]

theorem alookup_eq_none_iff (m : List (κ × α)) (k : κ) :
    alookup m k = none ↔ k ∉ akeys m := by
  induction m with
  | nil => simp [alookup, akeys]
  | cons kv rest ih =>
      obtain ⟨k0, v0⟩ := kv
      by_cases hk : k0 = k
      · subst hk
        simp [alookup, akeys]
      · have hk2 : ¬k = k0 := fun h => hk h.symm
        simp [alookup, hk, akeys, ih, hk2]

theorem alookup_eq_of_mem_nodup {m : List (κ × α)} {k : κ} {v : α}
    (hmem : (k, v) ∈ m) (hnd : (akeys m).Nodup) : alookup m k = some v := by
  induction m with
  | nil => simp at hmem
  | cons kv rest ih =>
      obtain ⟨k0, v0⟩ := kv
      simp only [akeys, List.map_cons, List.nodup_cons] at hnd
      rcases List.mem_cons.mp hmem with heq | hmem'
      · injection heq with h1 h2
        subst h1
        subst h2
        simp [alookup]
      · by_cases hk : k0 = k
        · subst hk
          exact absurd (List.mem_map_of_mem Prod.fst hmem') hnd.1
        · simp only [alookup, if_neg hk]
          exact ih hmem' hnd.2

theorem akeys_aset_of_mem (m : List (κ × α)) (k : κ) (v : α)
    (h : k ∈ akeys m) : akeys (aset m k v) = akeys m := by
  induction m with
  | nil => simp [akeys] at h
  | cons kv rest ih =>
      obtain ⟨k0, v0⟩ := kv
      by_cases h0 : k0 = k
      · subst h0
        simp [aset, akeys]
      · simp only [akeys, List.map_cons] at h
        have hk : k ∈ akeys rest := by
          rcases List.mem_cons.mp h with he | hr
          · exact absurd he.symm h0
          · exact hr
        have hrw := ih hk
        simp only [akeys] at hrw
        simp [aset, h0, akeys, hrw]

theorem akeys_aset_of_not_mem (m : List (κ × α)) (k : κ) (v : α)
    (h : k ∉ akeys m) : akeys (aset m k v) = akeys m ++ [k] := by
  induction m with
  | nil => simp [aset, akeys]
  | cons kv rest ih =>
      obtain ⟨k0, v0⟩ := kv
      simp only [akeys, List.map_cons, List.mem_cons] at h
      push_neg at h
      have h0 : ¬k0 = k := fun he => h.1 he.symm
      have hrw := ih h.2
      simp only [akeys] at hrw
      simp [aset, h0, akeys, hrw]

theorem nodup_akeys_aset (m : List (κ × α)) (k : κ) (v : α)
    (h : (akeys m).Nodup) : (akeys (aset m k v)).Nodup := by
  by_cases hk : k ∈ akeys m
  · rw [akeys_aset_of_mem m k v hk]; exact h
  · rw [akeys_aset_of_not_mem m k v hk]
    rw [List.nodup_append]
    refine ⟨h, List.nodup_singleton k, ?_⟩
    intro a ha hb
    rw [List.mem_singleton] at hb
    subst hb
    exact hk ha

theorem alookup_aremove (m : List (κ × α)) (k k' : κ) :
    alookup (aremove m k) k' = if k' = k then none else alookup m k' := by
  induction m with
  | nil => simp [aremove, alookup]
  | cons kv rest ih =>
      obtain ⟨k0, v0⟩ := kv
      by_cases h0 : k0 = k
      · subst h0
        by_cases hk : k' = k0
        · subst hk
          simp [aremove, alookup, ih]
        · have hk2 : ¬k0 = k' := fun h => hk h.symm
          simp [aremove, alookup, hk, hk2, ih]
      · by_cases h1 : k0 = k'
        · have hk : ¬k' = k := fun h => h0 (h1.trans h)
          simp [aremove, alookup, h0, h1, hk]
        · simp [aremove, alookup, h0, h1, ih]

theorem aremove_eq_self (m : List (κ × α)) (k : κ)
    (h : alookup m k = none) : aremove m k = m := by
  induction m with
  | nil => simp [aremove]
  | cons kv rest ih =>
      obtain ⟨k0, v0⟩ := kv
      by_cases h0 : k0 = k
      · subst h0
        simp [alookup] at h
      · simp only [alookup, if_neg h0] at h
        simp [aremove, h0, ih h]

theorem aset_eq_self (m : List (κ × α)) (k : κ) (v : α)
    (h : alookup m k = some v) : aset m k v = m := by
  induction m with
  | nil => simp [alookup] at h
  | cons kv rest ih =>
      obtain ⟨k0, v0⟩ := kv
      by_cases h0 : k0 = k
      · subst h0
        simp only [alookup, if_pos rfl] at h
        injection h with hv
        simp [aset, hv]
      · simp only [alookup, if_neg h0] at h
        simp [aset, h0, ih h]

theorem nodup_akeys_aremove (m : List (κ × α)) (k : κ)
    (h : (akeys m).Nodup) : (akeys (aremove m k)).Nodup := by
  induction m with
  | nil => simp [aremove, akeys]
  | cons kv rest ih =>
      obtain ⟨k0, v0⟩ := kv
      simp only [akeys, List.map_cons, List.nodup_cons] at h
      by_cases h0 : k0 = k
      · simp [aremove, h0, ih h.2]
      · simp only [aremove, if_neg h0, akeys, List.map_cons, List.nodup_cons]
        refine ⟨fun hmem => ?_, ih h.2⟩
        have hne : alookup (aremove rest k) k0 ≠ none := by
          intro hn
          exact (alookup_eq_none_iff (aremove rest k) k0).mp hn hmem
        rw [alookup_aremove] at hne
        by_cases hk0 : k0 = k
        · simp [hk0] at hne
        · rw [if_neg hk0] at hne
          have hks : k0 ∈ akeys rest := by
            by_contra hcon
            exact hne ((alookup_eq_none_iff rest k0).mpr hcon)
          exact h.1 hks

end AssocLemmas

theorem alookup_overlay (base leaf : Manifest) (k : String)
    (hnd : (akeys leaf).Nodup) :
    alookup (overlay base leaf) k =
      match alookup leaf k with
      | some v => some v
      | none => alookup base k := by
  induction leaf generalizing base with
  | nil => simp [overlay, alookup]
  | cons kv rest ih =>
      obtain ⟨k0, v0⟩ := kv
      simp only [akeys, List.map_cons, List.nodup_cons] at hnd
      have hstep : overlay base ((k0, v0) :: rest) = overlay (aset base k0 v0) rest := rfl
      rw [hstep, ih (aset base k0 v0) hnd.2]
      by_cases hk : k0 = k
      · subst hk
        have hnone : alookup rest k0 = none :=
          (alookup_eq_none_iff rest k0).mpr hnd.1
        simp [alookup, hnone, alookup_aset]
      · have hk2 : ¬k = k0 := fun h => hk h.symm
        cases hrest : alookup rest k with
        | some v => simp [alookup, hk, hrest]
        | none => simp [alookup, hk, hrest, alookup_aset, hk2]

theorem nodup_akeys_overlay (base leaf : Manifest)
    (hb : (akeys base).Nodup) : (akeys (overlay base leaf)).Nodup := by
  induction leaf generalizing base with
  | nil => exact hb
  | cons kv rest ih =>
      obtain ⟨k0, v0⟩ := kv
      exact ih (aset base k0 v0) (nodup_akeys_aset base k0 v0 hb)

theorem applyEntry_alookup_ne (c : Cache) (fs fs1 : FS) (p k : String) (e : FileState)
    (hne : k ≠ p) (h : applyEntry c fs p e = some fs1) :
    alookup fs1 k = alookup fs k := by
  unfold applyEntry at h
  by_cases hex : e.«exists» = false
  · rw [if_pos hex] at h
    injection h with h
    subst h
    simp [alookup_aremove, hne]
  · rw [if_neg hex] at h
    cases hh : e.hash with
    | none =>
        simp only [hh] at h
        injection h with h
        subst h
        rfl
    | some dg =>
        cases hb : c.readBlob dg with
        | none => simp [hh, hb] at h
        | some b =>
            simp only [hh, hb] at h
            injection h with h
            subst h
            simp [alookup_aset, hne]

theorem applyEntry_nodup (c : Cache) (fs fs1 : FS) (p : String) (e : FileState)
    (hnd : (akeys fs).Nodup) (h : applyEntry c fs p e = some fs1) :
    (akeys fs1).Nodup := by
  unfold applyEntry at h
  by_cases hex : e.«exists» = false
  · rw [if_pos hex] at h
    injection h with h
    subst h
    exact nodup_akeys_aremove fs p hnd
  · rw [if_neg hex] at h
    cases hh : e.hash with
    | none =>
        simp only [hh] at h
        injection h with h
        subst h
        exact hnd
    | some dg =>
        cases hb : c.readBlob dg with
        | none => simp [hh, hb] at h
        | some b =>
            simp only [hh, hb] at h
            injection h with h
            subst h
            exact nodup_akeys_aset fs p b hnd

theorem applyManifest_frame (c : Cache) (m : Manifest) (fs fs1 : FS) (p : String)
    (hp : alookup m p = none) (h : applyManifest c m fs = some fs1) :
    alookup fs1 p = alookup fs p := by
  induction m generalizing fs with
  | nil =>
      simp only [applyManifest] at h
      injection h with h
      subst h
      rfl
  | cons pe rest ih =>
      obtain ⟨q, e⟩ := pe
      simp only [applyManifest] at h
      cases hstep : applyEntry c fs q e with
      | none => rw [hstep] at h; exact absurd h (by simp)
      | some fsq =>
          rw [hstep] at h
          have hq : ¬q = p := by
            intro hqp
            subst hqp
            simp [alookup] at hp
          simp only [alookup, if_neg hq] at hp
          rw [ih fsq hp h]
          exact applyEntry_alookup_ne c fs fsq q p e (fun hk => hq hk.symm) hstep

theorem applyManifest_nodup (c : Cache) (m : Manifest) (fs fs1 : FS)
    (hnd : (akeys fs).Nodup) (h : applyManifest c m fs = some fs1) :
    (akeys fs1).Nodup := by
  induction m generalizing fs with
  | nil =>
      simp only [applyManifest] at h
      injection h with h
      subst h
      exact hnd
  | cons pe rest ih =>
      obtain ⟨q, e⟩ := pe
      simp only [applyManifest] at h
      cases hstep : applyEntry c fs q e with
      | none => rw [hstep] at h; exact absurd h (by simp)
      | some fsq =>
          rw [hstep] at h
          exact ih fsq (applyEntry_nodup c fs fsq q e hnd hstep) h

theorem applyManifest_alookup (c : Cache) (m : Manifest) (fs fs1 : FS)
    (p : String) (e : FileState)
    (hnd : (akeys m).Nodup) (hp : alookup m p = some e)
    (h : applyManifest c m fs = some fs1) :
    (e.«exists» = false → alookup fs1 p = none) ∧
    (e.«exists» = true → e.hash = none → alookup fs1 p = alookup fs p) ∧
    (∀ dg, e.«exists» = true → e.hash = some dg →
      alookup fs1 p = c.readBlob dg ∧ (c.readBlob dg).isSome = true) := by
  induction m generalizing fs with
  | nil => simp [alookup] at hp
  | cons pe rest ih =>
      obtain ⟨q, e0⟩ := pe
      simp only [akeys, List.map_cons, List.nodup_cons] at hnd
      simp only [applyManifest] at h
      cases hstep : applyEntry c fs q e0 with
      | none => rw [hstep] at h; exact absurd h (by simp)
      | some fsq =>
          rw [hstep] at h
          by_cases hq : q = p
          · subst hq
            simp only [alookup, if_pos rfl] at hp
            injection hp with hp
            subst hp
            have hrest : alookup rest q = none :=
              (alookup_eq_none_iff rest q).mpr hnd.1
            have hfinal : alookup fs1 q = alookup fsq q :=
              applyManifest_frame c rest fsq fs1 q hrest h
            unfold applyEntry at hstep
            by_cases hex : e0.«exists» = false
            · rw [if_pos hex] at hstep
              injection hstep with hstep
              subst hstep
              refine ⟨fun _ => ?_, fun hex1 _ => absurd hex1 (by simp [hex]), ?_⟩
              · rw [hfinal, alookup_aremove]
                simp
              · intro dg hex1
                exact absurd hex1 (by simp [hex])
            · rw [if_neg hex] at hstep
              cases hh : e0.hash with
              | none =>
                  simp only [hh] at hstep
                  injection hstep with hstep
                  subst hstep
                  exact ⟨fun hex0 => absurd hex0 hex, fun _ _ => hfinal,
                    fun dg _ hdg => absurd hdg (by simp [hh])⟩
              | some dg0 =>
                  cases hb : c.readBlob dg0 with
                  | none => simp [hh, hb] at hstep
                  | some b =>
                      simp only [hh, hb] at hstep
                      injection hstep with hstep
                      subst hstep
                      refine ⟨fun hex0 => absurd hex0 hex, fun _ hn => absurd hn (by simp [hh]), ?_⟩
                      intro dg _ hdg
                      injection hdg with hdg
                      subst hdg
                      rw [hfinal, alookup_aset]
                      simp [hb]
          · simp only [alookup, if_neg hq] at hp
            have hrec := ih fsq hnd.2 hp h
            have hne : alookup fsq p = alookup fs p :=
              applyEntry_alookup_ne c fs fsq q p e0 (fun hk => hq hk.symm) hstep
            exact ⟨hrec.1, fun hex hn => (hrec.2.1 hex hn).trans hne, hrec.2.2⟩

theorem applyManifest_blob_isSome (c : Cache) (m : Manifest) (fs fs1 : FS)
    (p : String) (e : FileState) (dg : Digest)
    (h : applyManifest c m fs = some fs1) (hmem : (p, e) ∈ m)
    (hex : e.«exists» = true) (hh : e.hash = some dg) :
    (c.readBlob dg).isSome = true := by
  induction m generalizing fs with
  | nil => simp at hmem
  | cons pe rest ih =>
      obtain ⟨q, e0⟩ := pe
      simp only [applyManifest] at h
      cases hstep : applyEntry c fs q e0 with
      | none => rw [hstep] at h; exact absurd h (by simp)
      | some fsq =>
          rw [hstep] at h
          rcases List.mem_cons.mp hmem with heq | hmem'
          · injection heq with h1 h2
            subst h1
            subst h2
            unfold applyEntry at hstep
            rw [if_neg (by simp [hex])] at hstep
            cases hb : c.readBlob dg with
            | none => simp [hh, hb] at hstep
            | some b => simp [hb]
          · exact ih fsq h hmem'

theorem applyManifest_of_fixed (c : Cache) (m : Manifest) (fs : FS)
    (h : ∀ pe ∈ m, applyEntry c fs pe.1 pe.2 = some fs) :
    applyManifest c m fs = some fs := by
  induction m with
  | nil => rfl
  | cons pe rest ih =>
      simp only [applyManifest]
      rw [h pe (List.mem_cons_self pe rest)]
      exact ih (fun pe2 hmem => h pe2 (List.mem_cons_of_mem pe hmem))

theorem applyManifest_self (c : Cache) (m : Manifest) (fs fs1 : FS)
    (hndm : (akeys m).Nodup) (hndf : (akeys fs).Nodup)
    (h : applyManifest c m fs = some fs1) :
    applyManifest c m fs1 = some fs1 := by
  have hnd1 : (akeys fs1).Nodup := applyManifest_nodup c m fs fs1 hndf h
  apply applyManifest_of_fixed
  intro pe hmem
  obtain ⟨p, e⟩ := pe
  have hp : alookup m p = some e := alookup_eq_of_mem_nodup hmem hndm
  have hval := applyManifest_alookup c m fs fs1 p e hndm hp h
  unfold applyEntry
  by_cases hex : e.«exists» = false
  · rw [if_pos hex]
    rw [aremove_eq_self fs1 p (hval.1 hex)]
  · rw [if_neg hex]
    have hex1 : e.«exists» = true := by simpa using hex
    cases hh : e.hash with
    | none => rfl
    | some dg =>
        have hblob := applyManifest_blob_isSome c m fs fs1 p e dg h hmem hex1 hh
        have hval2 := (hval.2.2 dg hex1 hh).1
        cases hb : c.readBlob dg with
        | none => rw [hb] at hblob; simp at hblob
        | some b =>
            rw [hb] at hval2
            simp only [hb]
            rw [aset_eq_self fs1 p b hval2]

theorem applyAll_cons (c : Cache) (m : Manifest) (fs : FS) (rest : List FS)
    (fs1 : FS) (rest1 : List FS)
    (h1 : applyManifest c m fs = some fs1) (h2 : applyAll c m rest = some rest1) :
    applyAll c m (fs :: rest) = some (fs1 :: rest1) := by
  simp only [applyAll, h1, h2]

theorem applyAll_zip (c : Cache) (m : Manifest) (roots rs : List FS)
    (h : applyAll c m roots = some rs) :
    rs.length = roots.length ∧
      ∀ pr ∈ roots.zip rs, applyManifest c m pr.1 = some pr.2 := by
  induction roots generalizing rs with
  | nil =>
      simp only [applyAll] at h
      injection h with h
      subst h
      simp
  | cons fs rest ih =>
      simp only [applyAll] at h
      cases h1 : applyManifest c m fs with
      | none => rw [h1] at h; exact absurd h (by simp)
      | some fs1 =>
          rw [h1] at h
          cases h2 : applyAll c m rest with
          | none => rw [h2] at h; exact absurd h (by simp)
          | some rest1 =>
              rw [h2] at h
              injection h with h
              subst h
              have hrec := ih rest1 h2
              refine ⟨by simp [hrec.1], ?_⟩
              intro pr hmem
              rcases List.mem_cons.mp hmem with heq | hmem'
              · subst heq
                exact h1
              · exact hrec.2 pr hmem'

theorem applyAll_reapply (c : Cache) (m : Manifest) (roots rs : List FS)
    (hndm : (akeys m).Nodup) (hroots : ∀ fs ∈ roots, (akeys fs).Nodup)
    (h : applyAll c m roots = some rs) :
    applyAll c m rs = some rs := by
  induction roots generalizing rs with
  | nil =>
      simp only [applyAll] at h
      injection h with h
      subst h
      rfl
  | cons fs rest ih =>
      simp only [applyAll] at h
      cases h1 : applyManifest c m fs with
      | none => rw [h1] at h; exact absurd h (by simp)
      | some fs1 =>
          rw [h1] at h
          cases h2 : applyAll c m rest with
          | none => rw [h2] at h; exact absurd h (by simp)
          | some rest1 =>
              rw [h2] at h
              injection h with h
              subst h
              have hfs : applyManifest c m fs1 = some fs1 :=
                applyManifest_self c m fs fs1 hndm
                  (hroots fs (List.mem_cons_self fs rest)) h1
              have hrest : applyAll c m rest1 = some rest1 :=
                ih rest1 (fun fs2 hmem => hroots fs2 (List.mem_cons_of_mem fs hmem)) h2
              exact applyAll_cons c m fs1 rest1 fs1 rest1 hfs hrest

/-- C10: `restoreLeaf` for a leaf id that is neither in the in-memory leaf
cache nor in the persistent store is a complete no-op: the tracker (hence
the tracked manifest and its reported stats) and every root are returned
unchanged; in particular the base manifest alone is not applied. -/
theorem restoreLeaf_unknown_leaf_noop
    (t : Tracker) (c : Cache) (lid : String) (applyRoots : List FS)
    (h1 : alookup t.leafCache lid = none) (h2 : c.readLeaf lid = none) :
    restoreLeaf t c (some lid) applyRoots = some (t, applyRoots) ∧
    (restoreLeaf t c (some lid) applyRoots).map (fun r => getTrackedStats r.1)
      = some (getTrackedStats t) := by
  have hmain : restoreLeaf t c (some lid) applyRoots = some (t, applyRoots) := by
    simp [restoreLeaf, loadLeaf, h1, h2]
  exact ⟨hmain, by rw [hmain]; rfl⟩

/-- C10 witness: a concrete tracker with one tracked file and an empty
store; restoring the never-saved leaf `ghost` changes nothing. -/
theorem restoreLeaf_unknown_leaf_noop_witness :
    restoreLeaf ⟨[], [("x", ⟨true, some [1], some 1, some false⟩)], []⟩ ⟨[], none, []⟩
        (some "ghost") [[("y", [1])]]
      = some (⟨[], [("x", ⟨true, some [1], some 1, some false⟩)], []⟩, [[("y", [1])]]) :=
  (restoreLeaf_unknown_leaf_noop
    ⟨[], [("x", ⟨true, some [1], some 1, some false⟩)], []⟩ ⟨[], none, []⟩
    "ghost" [[("y", [1])]] (by decide) (by decide)).1

/-- C7: `restoreLeaf` is idempotent: restoring the same leaf id again, on
the roots produced by a first successful restore, returns the identical
tracker (hence the same tracked manifest) and the identical on-disk state
at every root. -/
theorem restoreLeaf_idempotent
    (t t1 : Tracker) (c : Cache) (leafId : Option String) (roots rs : List FS)
    (hb : (akeys t.baseManifest).Nodup)
    (hroots : ∀ fs ∈ roots, (akeys fs).Nodup)
    (h1 : restoreLeaf t c leafId roots = some (t1, rs)) :
    restoreLeaf t1 c leafId rs = some (t1, rs) := by
  cases leafId with
  | none =>
      simp only [restoreLeaf] at h1 ⊢
      cases ha : applyAll c t.baseManifest roots with
      | none => rw [ha] at h1; simp at h1
      | some rs0 =>
          rw [ha] at h1
          simp only [Option.map_some'] at h1
          injection h1 with h1
          injection h1 with h1a h1b
          subst h1a
          subst h1b
          have hra : applyAll c t.baseManifest rs0 = some rs0 :=
            applyAll_reapply c t.baseManifest roots rs0 hb hroots ha
          simp [setTracked, hra]
  | some lid =>
      cases hc : alookup t.leafCache lid with
      | some lm =>
          simp only [restoreLeaf, loadLeaf, hc] at h1
          cases ha : applyAll c (overlay t.baseManifest lm) roots with
          | none => rw [ha] at h1; simp at h1
          | some rs0 =>
              rw [ha] at h1
              simp only [Option.map_some'] at h1
              injection h1 with h1
              injection h1 with h1a h1b
              subst h1a
              subst h1b
              have hra : applyAll c (overlay t.baseManifest lm) rs0 = some rs0 :=
                applyAll_reapply c (overlay t.baseManifest lm) roots rs0
                  (nodup_akeys_overlay t.baseManifest lm hb) hroots ha
              simp only [restoreLeaf, loadLeaf, setTracked]
              simp [hc, hra, setTracked]
      | none =>
          cases hr : c.readLeaf lid with
          | some lm =>
              simp only [restoreLeaf, loadLeaf, hc, hr] at h1
              cases ha : applyAll c (overlay t.baseManifest lm) roots with
              | none => rw [ha] at h1; simp at h1
              | some rs0 =>
                  rw [ha] at h1
                  simp only [Option.map_some'] at h1
                  injection h1 with h1
                  injection h1 with h1a h1b
                  subst h1a
                  subst h1b
                  have hra : applyAll c (overlay t.baseManifest lm) rs0 = some rs0 :=
                    applyAll_reapply c (overlay t.baseManifest lm) roots rs0
                      (nodup_akeys_overlay t.baseManifest lm hb) hroots ha
                  have hc1 : alookup (aset t.leafCache lid lm) lid = some lm := by
                    rw [alookup_aset]
                    simp
                  simp only [restoreLeaf, loadLeaf, setTracked]
                  simp [hc1, hra, setTracked]
          | none =>
              simp only [restoreLeaf, loadLeaf, hc, hr] at h1
              injection h1 with h1
              injection h1 with h1a h1b
              subst h1a
              subst h1b
              simp [restoreLeaf, loadLeaf, hc, hr]

/-- C7 witness: restoring the concrete leaf `L` of `ipT` a second time, on
the root produced by the first restore, reproduces the first result
exactly. -/
theorem restoreLeaf_idempotent_witness :
    restoreLeaf ipT1 ipC (some "L") ipRs = some (ipT1, ipRs) :=
  restoreLeaf_idempotent ipT ipT1 ipC (some "L") ipRoots ipRs
    (by decide) (by decide) (by decide)

/-- C2 counterexample: an effective-manifest entry with `exists:true` but
no hash is skipped by `restoreLeaf`, not deleted — the file `a.txt`
survives with its old bytes, refuting "missing hash implies delete". -/
theorem restoreLeaf_missing_hash_counterexample :
    restoreLeaf ⟨[], [], [("L", [("a.txt", ⟨true, none, none, none⟩)])]⟩
        ⟨[], none, []⟩ (some "L") [[("a.txt", [7])]]
      = some (⟨[], [("a.txt", ⟨true, none, none, none⟩)],
            [("L", [("a.txt", ⟨true, none, none, none⟩)])]⟩,
          [[("a.txt", [7])]]) ∧
    alookup [("a.txt", ([7] : Bytes))] "a.txt" ≠ none := by
  constructor
  · decide
  · decide

/-- C2 (amended): for every entry of the effective manifest and every root,
a successful `restoreLeaf` deletes the path when the entry has
`exists:false` (tolerating already-absent paths); an `exists:true` entry
with a missing hash leaves the path untouched; otherwise the bytes are
fetched by the entry's hash (which the success guarantees to be present)
and written at the path. -/
theorem restoreLeaf_applies_effective_entries
    (t t1 : Tracker) (c : Cache) (lid : String) (roots rs : List FS)
    (lm : Manifest) (p : String) (e : FileState)
    (hb : (akeys t.baseManifest).Nodup)
    (hload : (loadLeaf t c lid).1 = some lm)
    (hres : restoreLeaf t c (some lid) roots = some (t1, rs))
    (he : alookup (overlay t.baseManifest lm) p = some e) :
    rs.length = roots.length ∧
    ∀ pr ∈ roots.zip rs,
      (e.«exists» = false → alookup pr.2 p = none) ∧
      (e.«exists» = true → e.hash = none → alookup pr.2 p = alookup pr.1 p) ∧
      (∀ dg, e.«exists» = true → e.hash = some dg →
        (c.readBlob dg).isSome = true ∧ alookup pr.2 p = c.readBlob dg) := by
  have hndeff : (akeys (overlay t.baseManifest lm)).Nodup :=
    nodup_akeys_overlay t.baseManifest lm hb
  cases hl : loadLeaf t c lid with
  | mk o t' =>
      rw [hl] at hload
      simp only at hload
      subst hload
      simp only [restoreLeaf, hl] at hres
      cases ha : applyAll c (overlay t.baseManifest lm) roots with
      | none => rw [ha] at hres; simp at hres
      | some rs0 =>
          rw [ha] at hres
          simp only [Option.map_some'] at hres
          injection hres with hres
          injection hres with h1a h1b
          subst h1a
          subst h1b
          have hz := applyAll_zip c (overlay t.baseManifest lm) roots rs0 ha
          refine ⟨hz.1, ?_⟩
          intro pr hmem
          have happ := hz.2 pr hmem
          have hval := applyManifest_alookup c (overlay t.baseManifest lm)
            pr.1 pr.2 p e hndeff he happ
          exact ⟨hval.1, hval.2.1,
            fun dg hex hh => ⟨(hval.2.2 dg hex hh).2, (hval.2.2 dg hex hh).1⟩⟩

/-- C2 witness: restoring the concrete leaf `L` of `aeT` writes `keep.txt`
and `new.txt` from the blob store and deletes `gone.txt`. -/
theorem restoreLeaf_applies_effective_entries_witness :
    restoreLeaf aeT aeC (some "L") [aeRoot0] = some (aeT1, [aeRes]) ∧
    alookup aeRes "gone.txt" = none ∧
    alookup aeRes "keep.txt" = some [10] ∧
    alookup aeRes "new.txt" = some [20] := by
  have hdel := (restoreLeaf_applies_effective_entries aeT aeT1 aeC "L"
    [aeRoot0] [aeRes] [("gone.txt", ⟨false, none, none, none⟩),
      ("new.txt", ⟨true, some [2], some 1, some false⟩)]
    "gone.txt" ⟨false, none, none, none⟩
    (by decide) (by decide) (by decide) (by decide)).2
    (aeRoot0, aeRes) (by decide)
  exact ⟨by decide, hdel.1 (by decide), by decide, by decide⟩

/-- C3: the round-trip law.  After `saveLeaf(id)` and an immediately
following successful `restoreLeaf(id, [root])`, every tracked path holds,
at the root, exactly the bytes recorded for it in the blob store at save
time, and every path tracked as deleted is absent. -/
theorem saveLeaf_restore_roundtrip
    (t : Tracker) (c : Cache) (lid : String) (fs fs1 : FS) (t2 : Tracker)
    (p : String) (e : FileState)
    (hb : (akeys t.baseManifest).Nodup)
    (ht : (akeys t.trackedManifest).Nodup)
    (hlook : alookup t.trackedManifest p = some e)
    (hres : restoreLeaf (saveLeaf t c (some lid)).1 (saveLeaf t c (some lid)).2
        (some lid) [fs] = some (t2, [fs1])) :
    (e.«exists» = false → alookup fs1 p = none) ∧
    (∀ dg, e.«exists» = true → e.hash = some dg → alookup fs1 p = c.readBlob dg) := by
  simp only [saveLeaf] at hres
  have hc1 : alookup (aset t.leafCache lid t.trackedManifest) lid
      = some t.trackedManifest := by
    rw [alookup_aset]
    simp
  simp only [restoreLeaf, loadLeaf, hc1] at hres
  cases ha : applyAll (c.writeLeaf lid t.trackedManifest)
      (overlay t.baseManifest t.trackedManifest) [fs] with
  | none => rw [ha] at hres; simp at hres
  | some rs0 =>
      rw [ha] at hres
      simp only [Option.map_some'] at hres
      injection hres with hres
      injection hres with h1a h1b
      subst h1a
      subst h1b
      cases hm : applyManifest (c.writeLeaf lid t.trackedManifest)
          (overlay t.baseManifest t.trackedManifest) fs with
      | none => simp [applyAll, hm] at ha
      | some fsx =>
          simp only [applyAll, hm] at ha
          have hfsx : fsx = fs1 := by simpa using ha
          rw [hfsx] at hm
          have heff : alookup (overlay t.baseManifest t.trackedManifest) p = some e := by
            rw [alookup_overlay t.baseManifest t.trackedManifest p ht, hlook]
          have hval := applyManifest_alookup (c.writeLeaf lid t.trackedManifest)
            (overlay t.baseManifest t.trackedManifest) fs fs1 p e
            (nodup_akeys_overlay t.baseManifest t.trackedManifest hb) heff hm
          exact ⟨hval.1, fun dg hex hh => (hval.2.2 dg hex hh).1⟩

/-- C3 witness: the end-to-end scenario.  `note.txt` starts as `base` in
both roots, the sandbox copy becomes `updated` and is tracked, the leaf is
saved, the real file is overwritten to `other`, and restoring the leaf
makes the real file `updated` again. -/
theorem saveLeaf_restore_roundtrip_witness :
    restoreLeaf (saveLeaf rtStep2.1 rtStep2.2.1 (some "leaf-1")).1
        (saveLeaf rtStep2.1 rtStep2.2.1 (some "leaf-1")).2 (some "leaf-1") [rtReal1]
      = some (rtT2, [rtFs1]) ∧
    alookup rtFs1 "note.txt" = some (strBytes "updated") := by
  have hmain := saveLeaf_restore_roundtrip rtStep2.1 rtStep2.2.1 "leaf-1"
    rtReal1 rtFs1 rtT2 "note.txt" rtEntryU
    (by decide) (by decide) (by decide) (by decide)
  refine ⟨by decide, ?_⟩
  have h2 := hmain.2 (strBytes "updated") (by decide) (by decide)
  rw [h2]
  decide

/-- C1 (code bug): a `/undo` whose navigation primitive fails does NOT
restore the stacks to their pre-command values.  The handler pops the undo
stack and pushes the current leaf onto the redo stack before `navigateTo`
captures its rollback snapshot, so the rollback restores the
already-mutated stacks: from `undoStack=[leaf-A]`, `redoStack=[]`,
`currentLeafId=leaf-B`, a failing `/undo` ends with `undoStack=[]` and
`redoStack=[leaf-B]` instead of the original values; `/redo` fails
symmetrically.  (The `undo_redo` tool path in `applyToolNavigation`
captures before mutating and does roll back fully.) -/
theorem undo_redo_failed_navigation_not_rolled_back :
    undoCommand ⟨some "leaf-B", ["leaf-A"], [], false⟩ true
      = ⟨some "leaf-B", [], ["leaf-B"], false⟩ ∧
    undoCommand ⟨some "leaf-B", ["leaf-A"], [], false⟩ true
      ≠ ⟨some "leaf-B", ["leaf-A"], [], false⟩ ∧
    redoCommand ⟨some "leaf-B", [], ["leaf-A"], false⟩ true
      = ⟨some "leaf-B", ["leaf-B"], [], false⟩ ∧
    redoCommand ⟨some "leaf-B", [], ["leaf-A"], false⟩ true
      ≠ ⟨some "leaf-B", [], ["leaf-A"], false⟩ := by
  refine ⟨by decide, by decide, by decide, by decide⟩

/-- C4: the `describeChange` decision table.  No change when both sides
state nonexistence; added when the base side is absent or nonexistent and
the leaf exists; deleted when the base exists and the leaf does not;
modified when both exist with differing hashes; no change when both exist
with equal hashes — and never a change for two entries with equal
existence and equal hash. -/
theorem describeChange_decision_table :
    (∀ b l : Option FileState,
      (b.map FileState.exists).getD false = false →
      (l.map FileState.exists).getD false = false →
      describeChange b l = none) ∧
    (∀ (b : Option FileState) (e : FileState),
      (b.map FileState.exists).getD false = false → e.«exists» = true →
      describeChange b (some e) = some .A) ∧
    (∀ (e : FileState) (l : Option FileState),
      e.«exists» = true → (l.map FileState.exists).getD false = false →
      describeChange (some e) l = some .D) ∧
    (∀ e1 e2 : FileState, e1.«exists» = true → e2.«exists» = true →
      e1.hash ≠ e2.hash → describeChange (some e1) (some e2) = some .M) ∧
    (∀ e1 e2 : FileState, e1.«exists» = true → e2.«exists» = true →
      e1.hash = e2.hash → describeChange (some e1) (some e2) = none) ∧
    (∀ e1 e2 : FileState, e1.«exists» = e2.«exists» → e1.hash = e2.hash →
      describeChange (some e1) (some e2) = none) := by
  refine ⟨?_, ?_, ?_, ?_, ?_, ?_⟩
  · intro b l hb hl
    simp [describeChange, hb, hl]
  · intro b e hb he
    simp [describeChange, hb, he]
  · intro e l he hl
    simp [describeChange, he, hl]
  · intro e1 e2 h1 h2 hne
    simp [describeChange, h1, h2, Option.bind, hne]
  · intro e1 e2 h1 h2 heq
    simp [describeChange, h1, h2, Option.bind, heq]
  · intro e1 e2 hex heq
    cases h1 : e1.«exists» with
    | false =>
        have h2 : e2.«exists» = false := by rw [← hex, h1]
        simp [describeChange, h1, h2]
    | true =>
        have h2 : e2.«exists» = true := by rw [← hex, h1]
        simp [describeChange, h1, h2, Option.bind, heq]

/-- C4 witness: the table at concrete entries — an added file, a no-change
pair with equal hash, a deletion, a modification, and both no-change
clauses. -/
theorem describeChange_decision_table_witness :
    describeChange none none = none ∧
    describeChange none (some ⟨true, some [1], some 1, some false⟩) = some .A ∧
    describeChange (some ⟨true, some [1], some 1, some false⟩) none = some .D ∧
    describeChange (some ⟨true, some [1], some 1, some false⟩)
      (some ⟨true, some [2], some 1, some false⟩) = some .M ∧
    describeChange (some ⟨true, some [1], some 1, some false⟩)
      (some ⟨true, some [1], some 1, some false⟩) = none ∧
    describeChange (some ⟨false, none, none, none⟩)
      (some ⟨false, none, none, none⟩) = none := by
  refine ⟨describeChange_decision_table.1 none none (by decide) (by decide),
    describeChange_decision_table.2.1 none ⟨true, some [1], some 1, some false⟩
      (by decide) (by decide),
    describeChange_decision_table.2.2.1 ⟨true, some [1], some 1, some false⟩ none
      (by decide) (by decide),
    describeChange_decision_table.2.2.2.1 ⟨true, some [1], some 1, some false⟩
      ⟨true, some [2], some 1, some false⟩ (by decide) (by decide) (by decide),
    describeChange_decision_table.2.2.2.2.1 ⟨true, some [1], some 1, some false⟩
      ⟨true, some [1], some 1, some false⟩ (by decide) (by decide) (by decide),
    describeChange_decision_table.2.2.2.2.2 ⟨false, none, none, none⟩
      ⟨false, none, none, none⟩ (by decide) (by decide)⟩

/-- C5: `diffSandboxStats` partitions paths: a path only in `after` is
listed as added, a path in both with differing size or mtime as changed, a
path only in `before` as removed, and a path in both with equal stats in
none of the three lists; the spec's concrete example evaluates as stated. -/
theorem diffSandboxStats_partition :
    (∀ (before after : StatsMap) (p : String) (s : SandboxEntryStats),
      alookup after p = some s → alookup before p = none →
      p ∈ (diffSandboxStats before after).added) ∧
    (∀ (before after : StatsMap) (p : String) (s s2 : SandboxEntryStats),
      alookup before p = some s → alookup after p = some s2 →
      (s.size ≠ s2.size ∨ s.mtimeMs ≠ s2.mtimeMs) →
      p ∈ (diffSandboxStats before after).changed) ∧
    (∀ (before after : StatsMap) (p : String) (s : SandboxEntryStats),
      alookup before p = some s → alookup after p = none →
      p ∈ (diffSandboxStats before after).removed) ∧
    (∀ (before after : StatsMap) (p : String) (s : SandboxEntryStats),
      (akeys after).Nodup →
      alookup before p = some s → alookup after p = some s →
      p ∉ (diffSandboxStats before after).added ∧
      p ∉ (diffSandboxStats before after).changed ∧
      p ∉ (diffSandboxStats before after).removed) ∧
    diffSandboxStats exBefore exAfter = ⟨["c.txt"], ["a.txt"], ["b.txt"]⟩ := by
  refine ⟨?_, ?_, ?_, ?_, by decide⟩
  · intro before after p s ha hb
    simp only [diffSandboxStats]
    refine List.mem_map.mpr ⟨(p, s), ?_, rfl⟩
    rw [List.mem_filter]
    exact ⟨mem_of_alookup ha, by simp [hb]⟩
  · intro before after p s s2 hb ha hdiff
    simp only [diffSandboxStats]
    refine List.mem_map.mpr ⟨(p, s2), ?_, rfl⟩
    rw [List.mem_filter]
    refine ⟨mem_of_alookup ha, ?_⟩
    simp only [hb]
    simpa using hdiff
  · intro before after p s hb ha
    simp only [diffSandboxStats]
    refine List.mem_map.mpr ⟨(p, s), ?_, rfl⟩
    rw [List.mem_filter]
    exact ⟨mem_of_alookup hb, by simp [ha]⟩
  · intro before after p s hnd hb ha
    refine ⟨?_, ?_, ?_⟩
    · intro hmem
      simp only [diffSandboxStats, List.mem_map] at hmem
      obtain ⟨pe, hpe, hfst⟩ := hmem
      rw [List.mem_filter] at hpe
      subst hfst
      rw [hb] at hpe
      simp at hpe
    · intro hmem
      simp only [diffSandboxStats, List.mem_map] at hmem
      obtain ⟨pe, hpe, hfst⟩ := hmem
      rw [List.mem_filter] at hpe
      subst hfst
      have hs2 : pe.2 = s := by
        have hl := alookup_eq_of_mem_nodup
          (show (pe.1, pe.2) ∈ after from hpe.1) hnd
        rw [ha] at hl
        injection hl with hv
        exact hv.symm
      rw [hb, hs2] at hpe
      simp at hpe
    · intro hmem
      simp only [diffSandboxStats, List.mem_map] at hmem
      obtain ⟨pe, hpe, hfst⟩ := hmem
      rw [List.mem_filter] at hpe
      subst hfst
      rw [ha] at hpe
      simp at hpe

/-- C5 witness: the partition clauses at the spec's example maps — `c.txt`
added, `b.txt` changed, `a.txt` removed, and an equal-stat pair in no
list. -/
theorem diffSandboxStats_partition_witness :
    "c.txt" ∈ (diffSandboxStats exBefore exAfter).added ∧
    "b.txt" ∈ (diffSandboxStats exBefore exAfter).changed ∧
    "a.txt" ∈ (diffSandboxStats exBefore exAfter).removed ∧
    "b.txt" ∉ (diffSandboxStats exBefore [("b.txt", ⟨2, 200⟩)]).added ∧
    "b.txt" ∉ (diffSandboxStats exBefore [("b.txt", ⟨2, 200⟩)]).changed ∧
    "b.txt" ∉ (diffSandboxStats exBefore [("b.txt", ⟨2, 200⟩)]).removed := by
  have hnone := diffSandboxStats_partition.2.2.2.1 exBefore [("b.txt", ⟨2, 200⟩)]
    "b.txt" ⟨2, 200⟩ (by decide) (by decide) (by decide)
  exact ⟨diffSandboxStats_partition.1 exBefore exAfter "c.txt" ⟨4, 300⟩
      (by decide) (by decide),
    diffSandboxStats_partition.2.1 exBefore exAfter "b.txt" ⟨2, 200⟩ ⟨3, 200⟩
      (by decide) (by decide) (by decide),
    diffSandboxStats_partition.2.2.1 exBefore exAfter "a.txt" ⟨1, 100⟩
      (by decide) (by decide),
    hnone.1, hnone.2.1, hnone.2.2⟩

/-- C6: blob-store writes are idempotent and deduplicating.  `writeBlob`
for an already-present hash is a no-op (existence is checked before the
write), writing the same hash twice is a no-op the second time, and
because the digest is computed from the bytes alone, tracking identical
byte content at two different paths stores exactly one new blob, both
entries carrying the same single hash key. -/
theorem writeBlob_idempotent_dedup :
    (∀ (c : Cache) (h : Digest) (b : Bytes),
      (alookup c.blobs h).isSome = true → c.writeBlob h b = c) ∧
    (∀ (c : Cache) (h : Digest) (b b2 : Bytes),
      (c.writeBlob h b).writeBlob h b2 = c.writeBlob h b) ∧
    (∀ (hashFn : Bytes → Digest) (t : Tracker) (c : Cache) (sandbox : FS)
      (p1 p2 : String) (b : Bytes),
      p1 ≠ p2 → alookup sandbox p1 = some b → alookup sandbox p2 = some b →
      (alookup c.blobs (hashFn b)).isSome = false →
      (updateFromSandbox hashFn t c sandbox p1).2.2.hash = some (hashFn b) ∧
      (updateFromSandbox hashFn
          (updateFromSandbox hashFn t c sandbox p1).1
          (updateFromSandbox hashFn t c sandbox p1).2.1 sandbox p2).2.2.hash
        = some (hashFn b) ∧
      (updateFromSandbox hashFn
          (updateFromSandbox hashFn t c sandbox p1).1
          (updateFromSandbox hashFn t c sandbox p1).2.1 sandbox p2).2.1.blobs.length
        = c.blobs.length + 1) := by
  have hwrite : ∀ (c : Cache) (h : Digest) (b : Bytes),
      (alookup c.blobs h).isSome = true → c.writeBlob h b = c := by
    intro c h b hs
    simp [Cache.writeBlob, hs]
  refine ⟨hwrite, ?_, ?_⟩
  · intro c h b b2
    apply hwrite
    unfold Cache.writeBlob
    cases hl : alookup c.blobs h with
    | some v => simp [hl]
    | none => simp [hl, alookup_append, alookup]
  · intro hashFn t c sandbox p1 p2 b hne h1 h2 habsent
    have hread1 : readSnapshot hashFn sandbox p1
        = ⟨true, some b, some (hashFn b), some b.length, some (isBinaryBuffer b)⟩ := by
      simp [readSnapshot, h1]
    have hread2 : readSnapshot hashFn sandbox p2
        = ⟨true, some b, some (hashFn b), some b.length, some (isBinaryBuffer b)⟩ := by
      simp [readSnapshot, h2]
    have hblobs1 : (updateFromSandbox hashFn t c sandbox p1).2.1.blobs
        = c.blobs ++ [(hashFn b, b)] := by
      simp [updateFromSandbox, hread1, writeSnapshotToCache, Cache.writeBlob, habsent]
    have hpresent : (alookup ((updateFromSandbox hashFn t c sandbox p1).2.1.blobs)
        (hashFn b)).isSome = true := by
      rw [hblobs1, alookup_append]
      cases hl : alookup c.blobs (hashFn b) with
      | some v => rw [hl] at habsent; simp at habsent
      | none => simp [alookup]
    refine ⟨by simp [updateFromSandbox, hread1, writeSnapshotToCache], ?_, ?_⟩
    · simp [updateFromSandbox, hread2, writeSnapshotToCache]
    · have hstep2 : (updateFromSandbox hashFn
          (updateFromSandbox hashFn t c sandbox p1).1
          (updateFromSandbox hashFn t c sandbox p1).2.1 sandbox p2).2.1
          = (updateFromSandbox hashFn t c sandbox p1).2.1 := by
        simp [updateFromSandbox, hread2, writeSnapshotToCache]
        exact hwrite _ _ _ hpresent
      rw [hstep2, hblobs1]
      simp

/-- C6 witness: tracking byte content `[5]` at the two paths `p1` and `p2`
of `ddSandbox` from an empty cache stores exactly one blob, and both
entries carry the hash of `[5]`. -/
theorem writeBlob_idempotent_dedup_witness :
    (updateFromSandbox idDigest ⟨[], [], []⟩ ⟨[], none, []⟩ ddSandbox "p1").2.2.hash
      = some [5] ∧
    (updateFromSandbox idDigest
        (updateFromSandbox idDigest ⟨[], [], []⟩ ⟨[], none, []⟩ ddSandbox "p1").1
        (updateFromSandbox idDigest ⟨[], [], []⟩ ⟨[], none, []⟩ ddSandbox "p1").2.1
        ddSandbox "p2").2.1.blobs.length = 1 ∧
    (⟨[([5], [5])], none, []⟩ : Cache).writeBlob [5] [5] = ⟨[([5], [5])], none, []⟩ := by
  have hmain := writeBlob_idempotent_dedup.2.2 idDigest ⟨[], [], []⟩ ⟨[], none, []⟩
    ddSandbox "p1" "p2" [5] (by decide) (by decide) (by decide) (by decide)
  have hno := writeBlob_idempotent_dedup.1 ⟨[([5], [5])], none, []⟩ [5] [5] (by decide)
  exact ⟨hmain.1, hmain.2.2, hno⟩

/-- C9: every `FileState` recorded by `ensureBaseFromSandbox`,
`ensureBaseFromDisk`, `updateFromSandbox` or `markDeleted` satisfies the
invariant: `exists:false` entries carry no hash, size or binary flag, and
an entry with a hash has that hash present in the blob store at the moment
the entry is recorded. -/
theorem tracker_entries_satisfy_invariant :
    (∀ (hashFn : Bytes → Digest) (t : Tracker) (c : Cache) (sandbox : FS) (p : String),
      alookup t.baseManifest p = none →
      ∃ e, alookup (ensureBaseFromSandbox hashFn t c sandbox p).1.baseManifest p = some e ∧
        FileStateInv (ensureBaseFromSandbox hashFn t c sandbox p).2 e) ∧
    (∀ (hashFn : Bytes → Digest) (t : Tracker) (c : Cache) (real : FS) (p : String),
      alookup t.baseManifest p = none →
      ∃ e, alookup (ensureBaseFromDisk hashFn t c real p).1.baseManifest p = some e ∧
        FileStateInv (ensureBaseFromDisk hashFn t c real p).2 e) ∧
    (∀ (hashFn : Bytes → Digest) (t : Tracker) (c : Cache) (sandbox : FS) (p : String),
      alookup (updateFromSandbox hashFn t c sandbox p).1.trackedManifest p
        = some (updateFromSandbox hashFn t c sandbox p).2.2 ∧
      FileStateInv (updateFromSandbox hashFn t c sandbox p).2.1
        (updateFromSandbox hashFn t c sandbox p).2.2) ∧
    (∀ (c : Cache) (t : Tracker) (p : String),
      alookup (markDeleted t p).trackedManifest p = some ⟨false, none, none, none⟩ ∧
      FileStateInv c ⟨false, none, none, none⟩) := by
  have hsnap : ∀ (c : Cache) (s : SnapshotData),
      FileStateInv (writeSnapshotToCache c s).2 (writeSnapshotToCache c s).1 := by
    intro c s
    unfold writeSnapshotToCache
    by_cases hex : s.«exists» = false
    · rw [if_pos hex]
      exact ⟨fun _ => ⟨rfl, rfl, rfl⟩, fun dg h => by injection h⟩
    · rw [if_neg hex]
      cases hbuf : s.buffer with
      | none => exact ⟨fun _ => ⟨rfl, rfl, rfl⟩, fun dg h => by injection h⟩
      | some b =>
          cases hh : s.hash with
          | none => exact ⟨fun _ => ⟨rfl, rfl, rfl⟩, fun dg h => by injection h⟩
          | some h0 =>
              refine ⟨fun hfalse => by injection hfalse, ?_⟩
              intro dg hdg
              simp only at hdg
              injection hdg with hdg
              subst hdg
              unfold Cache.writeBlob
              cases hl : alookup c.blobs h0 with
              | some v => simp [hl]
              | none => simp [hl, alookup_append, alookup]
  have hensure : ∀ (hashFn : Bytes → Digest) (t : Tracker) (c : Cache) (src : FS) (p : String),
      alookup t.baseManifest p = none →
      ∃ e, alookup (ensureBase hashFn t c src p).1.baseManifest p = some e ∧
        FileStateInv (ensureBase hashFn t c src p).2 e := by
    intro hashFn t c src p hnone
    refine ⟨(writeSnapshotToCache c (readSnapshot hashFn src p)).1, ?_, ?_⟩
    · simp [ensureBase, hnone, alookup_aset]
    · have : (ensureBase hashFn t c src p).2
          = ((writeSnapshotToCache c (readSnapshot hashFn src p)).2).writeBase
              (aset t.baseManifest p (writeSnapshotToCache c (readSnapshot hashFn src p)).1) := by
        simp [ensureBase, hnone]
      rw [this]
      exact hsnap c (readSnapshot hashFn src p)
  refine ⟨fun hashFn t c sandbox p h => hensure hashFn t c sandbox p h,
    fun hashFn t c real p h => hensure hashFn t c real p h, ?_, ?_⟩
  · intro hashFn t c sandbox p
    constructor
    · simp [updateFromSandbox, alookup_aset]
    · exact hsnap c (readSnapshot hashFn sandbox p)
  · intro c t p
    constructor
    · simp [markDeleted, alookup_aset]
    · exact ⟨fun _ => ⟨rfl, rfl, rfl⟩, fun dg h => by injection h⟩

/-- C9 witness: the invariant clauses at concrete inputs — recording a
present file and a missing file into the base, one sandbox update, and one
`markDeleted`. -/
theorem tracker_entries_satisfy_invariant_witness :
    (∃ e, alookup (ensureBaseFromSandbox idDigest ⟨[], [], []⟩ ⟨[], none, []⟩
        [("f", [3])] "f").1.baseManifest "f" = some e ∧
      FileStateInv (ensureBaseFromSandbox idDigest ⟨[], [], []⟩ ⟨[], none, []⟩
        [("f", [3])] "f").2 e) ∧
    (∃ e, alookup (ensureBaseFromDisk idDigest ⟨[], [], []⟩ ⟨[], none, []⟩
        [] "g").1.baseManifest "g" = some e ∧
      FileStateInv (ensureBaseFromDisk idDigest ⟨[], [], []⟩ ⟨[], none, []⟩
        [] "g").2 e) ∧
    FileStateInv (updateFromSandbox idDigest ⟨[], [], []⟩ ⟨[], none, []⟩
        [("f", [3])] "f").2.1
      (updateFromSandbox idDigest ⟨[], [], []⟩ ⟨[], none, []⟩ [("f", [3])] "f").2.2 ∧
    alookup (markDeleted ⟨[], [], []⟩ "f").trackedManifest "f"
      = some ⟨false, none, none, none⟩ := by
  exact ⟨tracker_entries_satisfy_invariant.1 idDigest ⟨[], [], []⟩ ⟨[], none, []⟩
      [("f", [3])] "f" (by decide),
    tracker_entries_satisfy_invariant.2.1 idDigest ⟨[], [], []⟩ ⟨[], none, []⟩
      [] "g" (by decide),
    (tracker_entries_satisfy_invariant.2.2.1 idDigest ⟨[], [], []⟩ ⟨[], none, []⟩
      [("f", [3])] "f").2,
    (tracker_entries_satisfy_invariant.2.2.2 ⟨[], none, []⟩ ⟨[], [], []⟩ "f").1⟩

/-- C8 counterexample: with the context window at its default 4, the run of
five unchanged lines lying between the two changed regions of
`cxOld`/`cxNew` is printed in full — all five lines appear and no ellipsis
marker is emitted — refuting "every unchanged run longer than the context
window is collapsed". -/
theorem generateDiff_midrun_counterexample :
    (generateDiffLines cxOld cxNew cxParts 4).1
      = ["-1 A", "+1 B", " 2 u1", " 3 u2", " 4 u3", " 5 u4", " 6 u5", "-7 C", "+7 D"] ∧
    (generateDiffLines cxOld cxNew cxParts 4).1.contains (ellipsisLine 1) = false ∧
    partsOldText cxParts = cxOld ∧
    partsNewText cxParts = cxNew := by
  refine ⟨by decide, by decide, by decide, by decide⟩

/-- C8 (amended): the context window of the unchanged-run rendering of
`generateDiffString`.  An unchanged run between two changed regions is
printed in full, however long; a run only preceded by a change shows its
first `contextLines` lines and collapses the rest into one ellipsis
marker; a run only followed by a change collapses its leading lines into
one ellipsis marker and shows its last `contextLines` lines; and a run
adjacent to no changed region is omitted entirely — `renderPart`'s else
branch emits no output lines and only advances both line counters past
the run. -/
theorem renderCommon_context_window :
    (∀ (width contextLines : Nat) (raw : List String) (oldN newN : Nat),
      (renderCommon width contextLines true true raw oldN newN).1
        = commonLines width oldN raw ∧
      (renderCommon width contextLines true false raw oldN newN).1
        = commonLines width oldN (raw.take contextLines)
            ++ (if raw.length > contextLines then [ellipsisLine width] else []) ∧
      (renderCommon width contextLines false true raw oldN newN).1
        = (if raw.length > contextLines then [ellipsisLine width] else [])
            ++ commonLines width (oldN + (raw.length - contextLines))
                (raw.drop (raw.length - contextLines))) ∧
    (∀ (width contextLines : Nat) (v : String) (out : List String)
        (oldN newN : Nat) (fcl : Option Nat),
      renderPart width contextLines ⟨v, false, false⟩ false ⟨out, oldN, newN, false, fcl⟩
        = ⟨out, oldN + (splitRaw v).length, newN + (splitRaw v).length, false, fcl⟩) := by
  constructor
  · intro width contextLines raw oldN newN
    refine ⟨?_, ?_, ?_⟩
    · simp [renderCommon]
    · by_cases hlen : raw.length > contextLines
      · have hpos : 0 < raw.length - contextLines := Nat.sub_pos_of_lt hlen
        simp [renderCommon, hlen, Nat.pos_iff_ne_zero.mp hpos, hpos]
      · have htake : raw.take contextLines = raw :=
          List.take_of_length_le (Nat.le_of_not_lt hlen)
        simp [renderCommon, hlen, htake]
    · by_cases hlen : raw.length > contextLines
      · have hpos : 0 < raw.length - contextLines := Nat.sub_pos_of_lt hlen
        have hle : raw.length - (raw.length - contextLines) ≤ contextLines :=
          Nat.sub_le_iff_le_add.mpr (by omega)
        simp [renderCommon, hpos, hlen, List.length_drop, Nat.not_lt.mpr hle]
      · have hz : raw.length - contextLines = 0 := Nat.sub_eq_zero_of_le (Nat.le_of_not_lt hlen)
        simp [renderCommon, hz, Nat.le_of_not_lt hlen, List.length_drop]
  · intro width contextLines v out oldN newN fcl
    simp [renderPart]

end UndoRedo
